import Mathlib

/-!
Shallow embedding of the TreeCRISPRstandalone repository
(`treecrispr/pipeline.py`, `treecrispr/features_epi.py`, `treecrispr/models.py`)
and proofs about the frozen spec claims.

Sequences are modelled as `List Char` (ASCII nucleotide text, as the spec's
external-interface section guarantees for FASTA input).  Python's `dict` is
modelled as an association list with insertion-order update semantics.
-/

namespace TreeCrispr

/-! ### Sequence normalization (pipeline.py line 22 / 61: `seq.upper().replace("U","T")`)

ASCII model of Python `str.upper` composed with the `U -> T` substitution,
applied character-wise. -/

/-- One character of `s.upper().replace("U","T")`: lower-case ASCII letters are
upper-cased, and both `u` and `U` become `T`; every other character is kept. -/
def normChar (c : Char) : Char :=
  if c = 'a' then 'A' else if c = 'b' then 'B' else if c = 'c' then 'C'
  else if c = 'd' then 'D' else if c = 'e' then 'E' else if c = 'f' then 'F'
  else if c = 'g' then 'G' else if c = 'h' then 'H' else if c = 'i' then 'I'
  else if c = 'j' then 'J' else if c = 'k' then 'K' else if c = 'l' then 'L'
  else if c = 'm' then 'M' else if c = 'n' then 'N' else if c = 'o' then 'O'
  else if c = 'p' then 'P' else if c = 'q' then 'Q' else if c = 'r' then 'R'
  else if c = 's' then 'S' else if c = 't' then 'T' else if c = 'u' then 'T'
  else if c = 'v' then 'V' else if c = 'w' then 'W' else if c = 'x' then 'X'
  else if c = 'y' then 'Y' else if c = 'z' then 'Z'
  else if c = 'U' then 'T' else c

/-- `seq.upper().replace("U","T")` on a whole sequence. -/
def normSeq (s : List Char) : List Char := s.map normChar

/-- Modelled from the spec: `reverse_complement` lives in `features_seq.py`,
which is outside the provided sources.  The spec fixes the base pairing
`A↔T`, `C↔G` (its §8 example: the reverse complement of `CCT` is `AGG`) and
asserts the round-trip property `reverse_complement (reverse_complement s) = s`;
characters outside `{A,C,G,T}` are therefore left unchanged (the minimal
involutive completion consistent with the spec).  Complement of one base: -/
def complementBase (c : Char) : Char :=
  if c = 'A' then 'T' else if c = 'T' then 'A'
  else if c = 'G' then 'C' else if c = 'C' then 'G' else c

/-- Modelled from the spec: reverse complement of a sequence (complement each
base, then reverse). -/
def reverse_complement (s : List Char) : List Char := (s.map complementBase).reverse

/-- Python slice `s[a:b]` for `0 ≤ a ≤ b` (clamping at the end, as Python does). -/
def pySlice (s : List Char) (a b : Nat) : List Char := (s.drop a).take (b - a)

/-- The "strict N" base check of `_scan_30mers`: membership in
`VALID_BASES = {'A','T','G','C'}`. -/
def validBase (c : Char) : Bool := c == 'A' || c == 'T' || c == 'G' || c == 'C'

/-- One scanner hit `(start, end, strand, pam_label)`; the strand is the
Python string `"+"` or `"-"`. -/
structure Hit where
  start : Nat
  stop : Nat
  strand : Char
  pam : List Char
  deriving DecidableEq, Repr

/-- The body of the scanning loop of `_scan_30mers` for one full-length window
`w` at offset `i`: the forward (`NGG`, window positions 24..26) check followed
by the reverse (`CCN`, window positions 3..5) check; the two checks are
independent, so the list has length 0, 1 or 2. -/
def hitsFor (w : List Char) (i : Nat) : List Hit :=
  (if pySlice w 25 27 == ['G', 'G'] && validBase (w.getD 24 ' ') then
    [⟨i, i + 30, '+', pySlice w 24 27⟩]
  else []) ++
  (if pySlice w 3 5 == ['C', 'C'] && validBase (w.getD 5 ' ') then
    [⟨i, i + 30, '-', reverse_complement (pySlice w 3 6)⟩]
  else [])

/-- The loop `for i in range(0, max(0, n-30)+1)` of `_scan_30mers`, with the
`if len(w) < 30: break` early exit; `fuel` is the number of remaining loop
iterations. -/
def scanIter (s : List Char) : Nat → Nat → List Hit
  | _, 0 => []
  | i, fuel + 1 =>
    let w := pySlice s i (i + 30)
    if w.length < 30 then []
    else hitsFor w i ++ scanIter s (i + 1) fuel

/-- `_scan_30mers(seq)` from `pipeline.py`: normalize, then scan every window
start in `range(0, max(0, n-30)+1)` (in `Nat`, `max 0 (n-30) + 1 = n - 30 + 1`). -/
def _scan_30mers (seq : List Char) : List Hit :=
  let s := normSeq seq
  scanIter s 0 (s.length - 30 + 1)

/-- One row of the candidates table built by `build_candidates`. -/
structure Candidate where
  id : String
  start : Nat
  stop : Nat
  strand : Char
  sequence : List Char
  reverseComplement : List Char
  pam : List Char
  deriving DecidableEq, Repr

/-- `build_candidates(fasta_id, seq)` from `pipeline.py`: normalize the input,
scan, and for every hit emit a row; on the `-` strand `Sequence` and
`ReverseComplement` are swapped so that `Sequence` is always NGG-oriented. -/
def build_candidates (fastaId : String) (seq : List Char) : List Candidate :=
  let s := normSeq seq
  (_scan_30mers s).map fun h =>
    let win := pySlice s h.start h.stop
    let rc := reverse_complement win
    if h.strand = '+' then
      ⟨fastaId, h.start, h.stop, h.strand, win, rc, h.pam⟩
    else
      ⟨fastaId, h.start, h.stop, h.strand, rc, win, h.pam⟩

/-! ### Lemmas about the scanner -/

lemma length_normSeq (s : List Char) : (normSeq s).length = s.length :=
  List.length_map ..

lemma normChar_of_ne (c : Char)
    (h : c ∉ ['a', 'b', 'c', 'd', 'e', 'f', 'g', 'h', 'i', 'j', 'k', 'l', 'm', 'n', 'o',
      'p', 'q', 'r', 's', 't', 'u', 'v', 'w', 'x', 'y', 'z', 'U']) :
    normChar c = c := by
  simp only [List.mem_cons, List.not_mem_nil, or_false] at h
  push_neg at h
  obtain ⟨h1, h2, h3, h4, h5, h6, h7, h8, h9, h10, h11, h12, h13, h14, h15, h16, h17, h18,
    h19, h20, h21, h22, h23, h24, h25, h26, h27⟩ := h
  unfold normChar
  simp only [if_neg h1, if_neg h2, if_neg h3, if_neg h4, if_neg h5, if_neg h6, if_neg h7,
    if_neg h8, if_neg h9, if_neg h10, if_neg h11, if_neg h12, if_neg h13, if_neg h14,
    if_neg h15, if_neg h16, if_neg h17, if_neg h18, if_neg h19, if_neg h20, if_neg h21,
    if_neg h22, if_neg h23, if_neg h24, if_neg h25, if_neg h26, if_neg h27]

lemma normChar_fix (c : Char) : normChar (normChar c) = normChar c := by
  by_cases h : c ∈ ['a', 'b', 'c', 'd', 'e', 'f', 'g', 'h', 'i', 'j', 'k', 'l', 'm', 'n',
    'o', 'p', 'q', 'r', 's', 't', 'u', 'v', 'w', 'x', 'y', 'z', 'U']
  · fin_cases h <;> rfl
  · rw [normChar_of_ne c h, normChar_of_ne c h]

lemma normSeq_idem (s : List Char) : normSeq (normSeq s) = normSeq s := by
  simp only [normSeq, List.map_map]
  exact List.map_congr_left fun a _ => normChar_fix a

lemma complementBase_fix (c : Char) : complementBase (complementBase c) = c := by
  unfold complementBase
  split_ifs <;> simp_all

lemma reverse_complement_involutive (s : List Char) :
    reverse_complement (reverse_complement s) = s := by
  simp only [reverse_complement, List.map_reverse, List.reverse_reverse, List.map_map]
  have : s.map (complementBase ∘ complementBase) = s.map id :=
    List.map_congr_left fun a _ => complementBase_fix a
  simpa using this

lemma length_reverse_complement (s : List Char) :
    (reverse_complement s).length = s.length := by
  simp [reverse_complement]

lemma length_pySlice (s : List Char) (a b : Nat) :
    (pySlice s a b).length = min (b - a) (s.length - a) := by
  simp [pySlice]

lemma mem_hitsFor {w : List Char} {i : Nat} {h : Hit} :
    h ∈ hitsFor w i ↔
      (pySlice w 25 27 = ['G', 'G'] ∧ validBase (w.getD 24 ' ') = true ∧
        h = ⟨i, i + 30, '+', pySlice w 24 27⟩) ∨
      (pySlice w 3 5 = ['C', 'C'] ∧ validBase (w.getD 5 ' ') = true ∧
        h = ⟨i, i + 30, '-', reverse_complement (pySlice w 3 6)⟩) := by
  unfold hitsFor
  split_ifs with h1 h2 h2 <;>
    simp_all [List.mem_append, Bool.and_eq_true, beq_iff_eq]

lemma mem_scanIter {s : List Char} {h : Hit} : ∀ (fuel i : Nat),
    (h ∈ scanIter s i fuel ↔
      ∃ k, k < fuel ∧ i + k + 30 ≤ s.length ∧
        h ∈ hitsFor (pySlice s (i + k) (i + k + 30)) (i + k)) := by
  intro fuel
  induction fuel with
  | zero => intro i; simp [scanIter]
  | succ n ih =>
    intro i
    have hw : (pySlice s i (i + 30)).length = min 30 (s.length - i) := by
      simpa using length_pySlice s i (i + 30)
    by_cases hshort : s.length < i + 30
    · have : (pySlice s i (i + 30)).length < 30 := by omega
      simp only [scanIter, if_pos this]
      constructor
      · intro hmem; exact absurd hmem (List.not_mem_nil h)
      · rintro ⟨k, _, hk2, _⟩; omega
    · have hlong : i + 30 ≤ s.length := by omega
      have : ¬ (pySlice s i (i + 30)).length < 30 := by omega
      simp only [scanIter, if_neg this, List.mem_append, ih (i + 1)]
      constructor
      · rintro (hmem | ⟨k, hk1, hk2, hk3⟩)
        · exact ⟨0, by omega, by omega, by simpa using hmem⟩
        · exact ⟨k + 1, by omega, by omega, by
            have : i + 1 + k = i + (k + 1) := by omega
            rwa [this] at hk3⟩
      · rintro ⟨k, hk1, hk2, hk3⟩
        cases k with
        | zero => left; simpa using hk3
        | succ m =>
          right
          refine ⟨m, by omega, by omega, ?_⟩
          have : i + (m + 1) = i + 1 + m := by omega
          rwa [this] at hk3

lemma mem_scan_30mers {seq : List Char} {h : Hit} :
    h ∈ _scan_30mers seq ↔
      h.start + 30 ≤ (normSeq seq).length ∧
      h ∈ hitsFor (pySlice (normSeq seq) h.start (h.start + 30)) h.start := by
  unfold _scan_30mers
  rw [mem_scanIter]
  simp only [Nat.zero_add]
  constructor
  · rintro ⟨k, hk1, hk2, hk3⟩
    have hs : h.start = k := by
      rcases mem_hitsFor.mp hk3 with ⟨_, _, rfl⟩ | ⟨_, _, rfl⟩ <;> simp
    subst hs
    exact ⟨hk2, hk3⟩
  · rintro ⟨h1, h2⟩
    exact ⟨h.start, by omega, h1, h2⟩

/-! ### Claim theorems about the scanner and candidate builder -/

/-- C1: for every input sequence (after uppercasing and U→T substitution) and
every start offset `i` whose window `w = seq[i:i+30]` has full length 30, the
scanner emits a forward `+` hit at `(i, i+30)` iff `w[25:27] = "GG"` and
`w[24] ∈ {A,T,G,C}`, with motif exactly `w[24:27]`; and independently a
reverse `-` hit at `(i, i+30)` iff `w[3:5] = "CC"` and `w[5] ∈ {A,T,G,C}`,
with motif exactly `reverse_complement(w[3:6])`. -/
theorem scan_hit_characterization (seq : List Char) (i : Nat)
    (hlen : i + 30 ≤ (normSeq seq).length) :
    (∀ m, (Hit.mk i (i + 30) '+' m ∈ _scan_30mers seq ↔
      (pySlice (pySlice (normSeq seq) i (i + 30)) 25 27 = ['G', 'G'] ∧
       validBase ((pySlice (normSeq seq) i (i + 30)).getD 24 ' ') = true ∧
       m = pySlice (pySlice (normSeq seq) i (i + 30)) 24 27))) ∧
    (∀ m, (Hit.mk i (i + 30) '-' m ∈ _scan_30mers seq ↔
      (pySlice (pySlice (normSeq seq) i (i + 30)) 3 5 = ['C', 'C'] ∧
       validBase ((pySlice (normSeq seq) i (i + 30)).getD 5 ' ') = true ∧
       m = reverse_complement (pySlice (pySlice (normSeq seq) i (i + 30)) 3 6)))) := by
  constructor
  · intro m
    rw [mem_scan_30mers]
    simp only [mem_hitsFor]
    constructor
    · rintro ⟨_, ⟨h1, h2, h3⟩ | ⟨_, _, h3⟩⟩
      · exact ⟨h1, h2, by simpa using congrArg Hit.pam h3⟩
      · exact absurd (congrArg Hit.strand h3) (by simp)
    · rintro ⟨h1, h2, h3⟩
      exact ⟨by simpa using hlen, Or.inl ⟨h1, h2, by simp [h3]⟩⟩
  · intro m
    rw [mem_scan_30mers]
    simp only [mem_hitsFor]
    constructor
    · rintro ⟨_, ⟨_, _, h3⟩ | ⟨h1, h2, h3⟩⟩
      · exact absurd (congrArg Hit.strand h3) (by simp)
      · exact ⟨h1, h2, by simpa using congrArg Hit.pam h3⟩
    · rintro ⟨h1, h2, h3⟩
      exact ⟨by simpa using hlen, Or.inr ⟨h1, h2, by simp [h3]⟩⟩

/-- Witness for C1 on a concrete sequence: the 30-mer `AAACCT…AGG…` yields
both a forward and a reverse hit with the exact motifs. -/
theorem scan_hit_characterization_witness :
    (0 + 30 ≤ (normSeq "AAACCTAAAAAAAAAAAAAAAAAAAGGAAA".toList).length) ∧
    (Hit.mk 0 30 '+' ['A', 'G', 'G'] ∈
      _scan_30mers "AAACCTAAAAAAAAAAAAAAAAAAAGGAAA".toList) ∧
    (Hit.mk 0 30 '-' ['A', 'G', 'G'] ∈
      _scan_30mers "AAACCTAAAAAAAAAAAAAAAAAAAGGAAA".toList) := by
  refine ⟨by decide, ?_, ?_⟩
  · exact ((scan_hit_characterization "AAACCTAAAAAAAAAAAAAAAAAAAGGAAA".toList 0
      (by decide)).1 ['A', 'G', 'G']).mpr (by decide)
  · exact ((scan_hit_characterization "AAACCTAAAAAAAAAAAAAAAAAAAGGAAA".toList 0
      (by decide)).2 ['A', 'G', 'G']).mpr (by decide)

lemma length_window {s : List Char} {i : Nat} (h : i + 30 ≤ s.length) :
    (pySlice s i (i + 30)).length = 30 := by
  have := length_pySlice s i (i + 30)
  omega

lemma pySlice_rc_24_27 (w : List Char) (hw : w.length = 30) :
    pySlice (reverse_complement w) 24 27 = reverse_complement (pySlice w 3 6) := by
  have hu : (w.map complementBase).length = 30 := by simp [hw]
  simp only [reverse_complement, pySlice]
  rw [List.drop_reverse, hu]
  norm_num
  rw [List.take_reverse]
  have h6 : ((w.map complementBase).take 6).length = 6 := by
    simp [hu]
  rw [h6]
  norm_num
  rw [List.drop_take]

/-- C5: every input sequence of length strictly less than 30 yields an empty
hit list from the scanner and an empty candidate table, without error (both
functions are total). -/
theorem short_sequence_no_candidates (fastaId : String) (seq : List Char)
    (h : seq.length < 30) :
    _scan_30mers seq = [] ∧ build_candidates fastaId seq = [] := by
  have key : ∀ t : List Char, t.length < 30 → _scan_30mers t = [] := by
    intro t ht
    have hn : (normSeq t).length = t.length := length_normSeq t
    have hfuel : (normSeq t).length - 30 + 1 = 1 := by omega
    have hwin : (pySlice (normSeq t) 0 (0 + 30)).length < 30 := by
      have := length_pySlice (normSeq t) 0 (0 + 30)
      omega
    simp only [_scan_30mers, hfuel, scanIter, if_pos hwin]
  refine ⟨key seq h, ?_⟩
  simp only [build_candidates, key (normSeq seq) (by rw [length_normSeq]; exact h),
    List.map_nil]

/-- Witness for C5: a 5-base sequence produces no hits and no candidates. -/
theorem short_sequence_no_candidates_witness :
    ("ACGTA".toList.length < 30) ∧
    (_scan_30mers "ACGTA".toList = [] ∧ build_candidates "id1" "ACGTA".toList = []) :=
  ⟨by decide, short_sequence_no_candidates "id1" "ACGTA".toList (by decide)⟩

lemma mem_build_candidates {fastaId : String} {seq : List Char} {c : Candidate}
    (hc : c ∈ build_candidates fastaId seq) :
    ∃ i,
      i + 30 ≤ (normSeq seq).length ∧
      ((pySlice (pySlice (normSeq seq) i (i + 30)) 25 27 = ['G', 'G'] ∧
        validBase ((pySlice (normSeq seq) i (i + 30)).getD 24 ' ') = true ∧
        c = ⟨fastaId, i, i + 30, '+', pySlice (normSeq seq) i (i + 30),
          reverse_complement (pySlice (normSeq seq) i (i + 30)),
          pySlice (pySlice (normSeq seq) i (i + 30)) 24 27⟩) ∨
       (pySlice (pySlice (normSeq seq) i (i + 30)) 3 5 = ['C', 'C'] ∧
        validBase ((pySlice (normSeq seq) i (i + 30)).getD 5 ' ') = true ∧
        c = ⟨fastaId, i, i + 30, '-',
          reverse_complement (pySlice (normSeq seq) i (i + 30)),
          pySlice (normSeq seq) i (i + 30),
          reverse_complement (pySlice (pySlice (normSeq seq) i (i + 30)) 3 6)⟩)) := by
  simp only [build_candidates, List.mem_map] at hc
  obtain ⟨h, hmem, rfl⟩ := hc
  rw [mem_scan_30mers, normSeq_idem] at hmem
  obtain ⟨hlen, hhit⟩ := hmem
  obtain ⟨hs, hp, hstr, hpam⟩ := h
  rcases mem_hitsFor.mp hhit with ⟨h1, h2, heq⟩ | ⟨h1, h2, heq⟩ <;>
    simp only [Hit.mk.injEq] at heq
  · obtain ⟨-, rfl, rfl, rfl⟩ := heq
    exact ⟨hs, hlen, Or.inl ⟨h1, h2, by simp⟩⟩
  · obtain ⟨-, rfl, rfl, rfl⟩ := heq
    exact ⟨hs, hlen, Or.inr ⟨h1, h2, by simp⟩⟩

/-- C2: for every candidate emitted by `build_candidates`, on either strand,
`reverse_complement Sequence = ReverseComplement`; for a forward hit,
`Sequence` is the raw 30-base window of the (normalized) input and
`ReverseComplement` its reverse complement; for a reverse hit the two are
swapped. -/
theorem candidate_orientation_roundtrip (fastaId : String) (seq : List Char)
    (c : Candidate) (hc : c ∈ build_candidates fastaId seq) :
    reverse_complement c.sequence = c.reverseComplement ∧
    (c.strand = '+' →
      c.sequence = pySlice (normSeq seq) c.start c.stop ∧
      c.reverseComplement = reverse_complement (pySlice (normSeq seq) c.start c.stop)) ∧
    (c.strand = '-' →
      c.sequence = reverse_complement (pySlice (normSeq seq) c.start c.stop) ∧
      c.reverseComplement = pySlice (normSeq seq) c.start c.stop) := by
  obtain ⟨i, hlen, hcase⟩ := mem_build_candidates hc
  rcases hcase with ⟨h1, h2, rfl⟩ | ⟨h1, h2, rfl⟩
  · exact ⟨rfl, fun _ => ⟨rfl, rfl⟩, fun habs => by simp at habs⟩
  · exact ⟨reverse_complement_involutive _, fun habs => by simp at habs,
      fun _ => ⟨rfl, rfl⟩⟩

/-- Witness for C2: the reverse-strand candidate produced from a concrete
sequence satisfies the round-trip and swap properties. -/
theorem candidate_orientation_roundtrip_witness :
    ((Candidate.mk "x" 0 30 '-' "TTTCCTTTTTTTTTTTTTTTTTTTAGGTTT".toList
        "AAACCTAAAAAAAAAAAAAAAAAAAGGAAA".toList ['A', 'G', 'G']) ∈
      build_candidates "x" "AAACCTAAAAAAAAAAAAAAAAAAAGGAAA".toList) ∧
    reverse_complement "TTTCCTTTTTTTTTTTTTTTTTTTAGGTTT".toList =
      "AAACCTAAAAAAAAAAAAAAAAAAAGGAAA".toList :=
  ⟨by decide,
    (candidate_orientation_roundtrip "x" "AAACCTAAAAAAAAAAAAAAAAAAAGGAAA".toList
      (Candidate.mk "x" 0 30 '-' "TTTCCTTTTTTTTTTTTTTTTTTTAGGTTT".toList
        "AAACCTAAAAAAAAAAAAAAAAAAAGGAAA".toList ['A', 'G', 'G']) (by decide)).1⟩

/-- C10: every candidate record has a 30-character `Sequence`, `End = Start + 30`,
and its `PAM` field equals `Sequence[24:27]` — on the forward strand literally,
and on the reverse strand because the reverse complement of the window places
`reverse_complement(window[3:6])` exactly at positions 24–26. -/
theorem candidate_window_invariants (fastaId : String) (seq : List Char)
    (c : Candidate) (hc : c ∈ build_candidates fastaId seq) :
    c.sequence.length = 30 ∧ c.stop = c.start + 30 ∧
    c.pam = pySlice c.sequence 24 27 := by
  obtain ⟨i, hlen, hcase⟩ := mem_build_candidates hc
  have hwl : (pySlice (normSeq seq) i (i + 30)).length = 30 := length_window hlen
  rcases hcase with ⟨h1, h2, rfl⟩ | ⟨h1, h2, rfl⟩
  · exact ⟨hwl, rfl, rfl⟩
  · refine ⟨?_, rfl, ?_⟩
    · simpa [length_reverse_complement] using hwl
    · exact (pySlice_rc_24_27 _ hwl).symm

/-- Witness for C10: both concrete candidates from a concrete sequence have a
30-base `Sequence`, `End = Start + 30`, and `PAM = Sequence[24:27]`. -/
theorem candidate_window_invariants_witness :
    ((Candidate.mk "x" 0 30 '-' "TTTCCTTTTTTTTTTTTTTTTTTTAGGTTT".toList
        "AAACCTAAAAAAAAAAAAAAAAAAAGGAAA".toList ['A', 'G', 'G']) ∈
      build_candidates "x" "AAACCTAAAAAAAAAAAAAAAAAAAGGAAA".toList) ∧
    ("TTTCCTTTTTTTTTTTTTTTTTTTAGGTTT".toList.length = 30 ∧ (30 : Nat) = 0 + 30 ∧
      ['A', 'G', 'G'] = pySlice "TTTCCTTTTTTTTTTTTTTTTTTTAGGTTT".toList 24 27) :=
  ⟨by decide,
    candidate_window_invariants "x" "AAACCTAAAAAAAAAAAAAAAAAAAGGAAA".toList
      (Candidate.mk "x" 0 30 '-' "TTTCCTTTTTTTTTTTTTTTTTTTAGGTTT".toList
        "AAACCTAAAAAAAAAAAAAAAAAAAGGAAA".toList ['A', 'G', 'G']) (by decide)⟩

/-! ### String and dict helpers for the `features_epi.py` / `models.py` embedding -/

/-- `p` is a leading segment of `s` (Python `s.startswith(p)` reads
`leadsWith p s.data`). -/
def leadsWith : List Char → List Char → Bool
  | [], _ => true
  | _ :: _, [] => false
  | p :: ps, c :: cs => p == c && leadsWith ps cs

/-- Python `pat in s` (substring containment). -/
def containsSub : List Char → List Char → Bool
  | [], pat => pat.isEmpty
  | s@(_ :: rest), pat => leadsWith pat s || containsSub rest pat

/-- ASCII model of Python `str.lower` (character-wise). -/
def lowerStr (s : String) : String := ⟨s.data.map Char.toLower⟩

/-- Python dict assignment `d[k] = v` on an insertion-ordered association
list: update in place if the key exists, else append. -/
def setK {α : Type} (d : List (String × α)) (k : String) (v : α) : List (String × α) :=
  if d.any (fun p => p.1 == k) then d.map (fun p => if p.1 == k then (k, v) else p)
  else d ++ [(k, v)]

/-- Python dict lookup `d.get(k)` / `k in d` (first matching key; keys are
unique by construction of `setK`). -/
def lookupK {α : Type} : List (String × α) → String → Option α
  | [], _ => none
  | p :: ps, k => if p.1 == k then some p.2 else lookupK ps k

/-- The keys of a dict, in insertion order. -/
def keysOf {α : Type} (d : List (String × α)) : List String := d.map Prod.fst

/-! ### The coordinate regex of `features_epi.py`

`_COORD_RE = re.compile(r'(chr[\w]+|\b[0-9XYM]+)\s*:\s*([0-9,]+)\s*-\s*([0-9,]+)', re.IGNORECASE)`
searched with `.search`.  The character classes are modelled over ASCII
(`\w = [A-Za-z0-9_]`, `\s` = the six ASCII whitespace characters).  Because
none of `:`, `-`, whitespace and the class characters overlap, every greedy
sub-match is maximal-munch with no backtracking, so the engine below (leftmost
search position, first alternative first, maximal munch per class) computes
exactly the Python match. -/

/-- ASCII `\w`. -/
def isWordCh (c : Char) : Bool := c.isAlpha || c.isDigit || c == '_'

/-- ASCII `\s`. -/
def isSpaceCh (c : Char) : Bool :=
  c == ' ' || c == '\t' || c == '\n' || c == '\r' || c == Char.ofNat 11 || c == Char.ofNat 12

/-- The class `[0-9,]`. -/
def isCoordCls (c : Char) : Bool := c.isDigit || c == ','

/-- The class `[0-9XYM]` under `re.IGNORECASE`. -/
def isXYMCls (c : Char) : Bool :=
  c.isDigit || c == 'X' || c == 'Y' || c == 'M' || c == 'x' || c == 'y' || c == 'm'

/-- Match `\s*:\s*([0-9,]+)\s*-\s*([0-9,]+)` at the front of `s` (trailing
characters are ignored, as under `re.search`); returns the two groups. -/
def restAfterChrom (s : List Char) : Option (List Char × List Char) :=
  match s.dropWhile isSpaceCh with
  | ':' :: s2 =>
    let s3 := s2.dropWhile isSpaceCh
    let g2 := s3.takeWhile isCoordCls
    if g2.isEmpty then none
    else
      match (s3.dropWhile isCoordCls).dropWhile isSpaceCh with
      | '-' :: s6 =>
        let s7 := s6.dropWhile isSpaceCh
        let g3 := s7.takeWhile isCoordCls
        if g3.isEmpty then none else some (g2, g3)
      | _ => none
  | _ => none

/-- Try to match the whole regex at the current position; `prev` is the
character before this position (for the `\b` of the second alternative).
Returns the three capture groups. -/
def matchHere (prev : Option Char) (s : List Char) :
    Option (List Char × List Char × List Char) :=
  (match s with
   | c1 :: c2 :: c3 :: rest =>
     if c1.toLower == 'c' && c2.toLower == 'h' && c3.toLower == 'r' then
       let w := rest.takeWhile isWordCh
       if w.isEmpty then none
       else
         match restAfterChrom (rest.dropWhile isWordCh) with
         | some (g2, g3) => some (c1 :: c2 :: c3 :: w, g2, g3)
         | none => none
     else none
   | _ => none).orElse fun _ =>
  (let bOK := match prev with | none => true | some p => !(isWordCh p)
   if bOK then
     let g1 := s.takeWhile isXYMCls
     if g1.isEmpty then none
     else
       match restAfterChrom (s.dropWhile isXYMCls) with
       | some (g2, g3) => some (g1, g2, g3)
       | none => none
   else none)

/-- `re.search`: try every start position from the left. -/
def searchFrom (prev : Option Char) : List Char → Option (List Char × List Char × List Char)
  | [] => matchHere prev []
  | c :: rest =>
    match matchHere prev (c :: rest) with
    | some r => some r
    | none => searchFrom (some c) rest

/-! ### `_parse_id_region` and `epigenetic_features` -/

/-- `group.replace(",", "")` for a `[0-9,]+` group. -/
def stripCommas (g : List Char) : List Char := g.filter (fun c => c != ',')

/-- Decimal value of a digit string. -/
def decimalVal (ds : List Char) : Nat := ds.foldl (fun a c => 10 * a + (c.toNat - 48)) 0

/-- Python `int(group.replace(",", ""))`: raises `ValueError` (modelled as
`Except.error ()`) when the comma-stripped string is empty. -/
def pyInt (g : List Char) : Except Unit Nat :=
  let ds := stripCommas g
  if ds.isEmpty then .error () else .ok (decimalVal ds)

/-- `_parse_id_region(id_str)` from `features_epi.py`: regex-search the id,
prepend `chr` when the chromosome group does not already start with it
(case-insensitively), convert the two coordinate groups with `int`, decrement
the start by one when it is strictly positive, and return
`(chrom.lower(), start, end)`.  The `int` conversions can raise, which the
caller does not catch, hence the `Except`. -/
def _parse_id_region (idStr : String) : Except Unit (Option (String × Int × Int)) :=
  match searchFrom none idStr.data with
  | none => .ok none
  | some (g1, g2, g3) =>
    let chrom : List Char :=
      if leadsWith ['c', 'h', 'r'] (g1.map Char.toLower) then g1
      else 'c' :: 'h' :: 'r' :: g1
    match pyInt g2 with
    | .error e => .error e
    | .ok st =>
      match pyInt g3 with
      | .error e => .error e
      | .ok en =>
        let st' : Int := if (st : Int) > 0 then (st : Int) - 1 else (st : Int)
        .ok (some (⟨chrom.map Char.toLower⟩, st', (en : Int)))

/-- The on-disk state of `BIGWIG_DIR`: whether the directory exists, and the
names of its regular files in `iterdir` order. -/
structure BigwigDir where
  dirExists : Bool
  files : List String

/-- The dict comprehension `{p.name.lower(): p for p in BIGWIG_DIR.iterdir() if p.is_file()}`
(on duplicate lowercased names the later file overwrites). -/
def diskIndex (files : List String) : List (String × String) :=
  files.foldl (fun d name => setK d (lowerStr name) name) []

/-- `cands.sort(key=lambda p: len(p.name)); cands[0]`: Python's stable sort
followed by `[0]` returns the first element of minimal length, which this
fold computes. -/
def selectShortest : List String → Option String
  | [] => none
  | x :: xs => some (xs.foldl (fun b f => if f.length < b.length then f else b) x)

/-- The candidate files for one expected name: the dict values whose
(lowercased) key starts with `expected.lower()`, in dict order. -/
def candsFor (disk : List (String × String)) (e : String) : List String :=
  (disk.filter (fun p => leadsWith (lowerStr e).data p.1.data)).map Prod.snd

/-- One iteration of the `for expected in EXPECTED_BIGWIGS` loop of
`_map_files_to_expected_names`. -/
def mapStep (disk : List (String × String)) (m : List (String × String)) (e : String) :
    List (String × String) :=
  match selectShortest (candsFor disk e) with
  | some f => setK m e f
  | none => m

/-- `_map_files_to_expected_names()` from `features_epi.py`, with the
configured `EXPECTED_BIGWIGS` list and the directory state as explicit
arguments (they live in the external `config.py`). -/
def _map_files_to_expected_names (expected : List String) (dir : BigwigDir) :
    List (String × String) :=
  if !dir.dirExists then []
  else expected.foldl (mapStep (diskIndex dir.files)) []

/-- The feature key `f"{base}_{int(ext)}"`; extensions are modelled as the
integers they are converted to. -/
def featKey (base : String) (ext : Int) : String := base ++ "_" ++ toString ext

/-- `_predeclare_zero_feats()` from `features_epi.py`: every expected-source ×
extension key at value `0.0` (values modelled as `ℚ`). -/
def _predeclare_zero_feats (expected : List String) (extensions : List Int) :
    List (String × ℚ) :=
  expected.foldl (fun d base =>
    extensions.foldl (fun d ext => setK d (featKey base ext) 0) d) []

/-- `Path(name).stem`: the file name up to its last dot (a leading dot, as in
a hidden file, is not a suffix separator). -/
def pathStem (name : String) : String :=
  let parts := name.data
  let suffixLen := (parts.reverse.takeWhile (fun c => c != '.')).length
  if suffixLen = parts.length then name
  else if parts.length - suffixLen - 1 = 0 then name
  else ⟨parts.take (parts.length - suffixLen - 1)⟩

/-- The external `single_interval_features` collaborator (`epi_seq.py`, out of
scope per the spec): given file paths, an absolute interval and the extension
list, it returns values keyed by file stem, or fails. -/
def SignalQuery : Type :=
  List String → String → Int → Int → List Int → Except String (List (String × ℚ))

/-- One candidate row as `epigenetic_features` consumes it: the `ID` string
and the results of `int(row.get("Start"))` / `int(row.get("End"))` (`none`
models a failed coercion, which the code catches). -/
structure EpiRow where
  id : String
  start : Option Int
  stop : Option Int

/-- The re-mapping loop at the end of `epigenetic_features`: for every
`(expected_name, file)` pair and extension, copy `vals[f"{stem}_{ext}"]`
(when present) onto the model key `f"{expected_name}_{ext}"`. -/
def overwriteVals (extensions : List Int) (vals : List (String × ℚ))
    (feats : List (String × ℚ)) (fileMap : List (String × String)) :
    List (String × ℚ) :=
  fileMap.foldl (fun f p =>
    extensions.foldl (fun f ext =>
      match lookupK vals (featKey (pathStem p.2) ext) with
      | some v => setK f (featKey p.1 ext) v
      | none => f) f) feats

/-- `epigenetic_features(row)` from `features_epi.py`, with the configuration
(`EXPECTED_BIGWIGS`, `EPIGENETIC_EXTENSIONS`), the signal directory state and
the external query function as explicit arguments.  Query failures are caught
(logged) and the pre-declared values kept; a failure inside
`_parse_id_region`'s `int` conversions is *not* caught and propagates. -/
def epigenetic_features (expected : List String) (extensions : List Int)
    (dir : BigwigDir) (query : SignalQuery) (row : EpiRow) :
    Except Unit (List (String × ℚ)) :=
  let feats := _predeclare_zero_feats expected extensions
  match _parse_id_region row.id with
  | .error e => .error e
  | .ok none => .ok feats
  | .ok (some (chrom, absStartInput, _)) =>
    match row.start, row.stop with
    | some offS, some offE =>
      let absS := absStartInput + offS
      let absE := absStartInput + offE
      let fileMap := _map_files_to_expected_names expected dir
      if fileMap.isEmpty then .ok feats
      else
        match query (fileMap.map Prod.snd) chrom absS absE extensions with
        | .error _ => .ok feats
        | .ok vals => .ok (overwriteVals extensions vals feats fileMap)
    | _, _ => .ok feats

/-! ### Dict lemmas -/

lemma foldl_pres {α β : Type} (P : β → Prop) (f : β → α → β) :
    ∀ (l : List α) (b : β), P b → (∀ b a, a ∈ l → P b → P (f b a)) → P (l.foldl f b) := by
  intro l
  induction l with
  | nil => intro b hb _; exact hb
  | cons x xs ih =>
    intro b hb hf
    exact ih (f b x) (hf b x (by simp) hb) fun b a ha => hf b a (by simp [ha])

lemma any_key_iff {α : Type} (d : List (String × α)) (k : String) :
    (d.any fun p => p.1 == k) = true ↔ k ∈ keysOf d := by
  simp only [List.any_eq_true, keysOf, List.mem_map, beq_iff_eq]

lemma keysOf_setK {α : Type} (d : List (String × α)) (k : String) (v : α) :
    keysOf (setK d k v) =
      if (d.any fun p => p.1 == k) then keysOf d else keysOf d ++ [k] := by
  unfold setK keysOf
  by_cases h : (d.any fun p => p.1 == k) <;> simp only [h, if_true, if_false, Bool.false_eq_true]
  · rw [List.map_map]
    apply List.map_congr_left
    intro p _
    by_cases hpk : p.1 = k <;> simp [hpk]
  · simp

lemma mem_keysOf_setK {α : Type} (d : List (String × α)) (k : String) (v : α) (k' : String) :
    k' ∈ keysOf (setK d k v) ↔ k' ∈ keysOf d ∨ k' = k := by
  rw [keysOf_setK]
  by_cases h : (d.any fun p => p.1 == k)
  · simp only [h, if_true]
    constructor
    · exact Or.inl
    · rintro (hk | rfl)
      · exact hk
      · exact (any_key_iff d k').mp h
  · simp [h]

lemma mem_setK_pres {α : Type} (P : String × α → Prop) (d : List (String × α))
    (k : String) (v : α) (hd : ∀ p ∈ d, P p) (hkv : P (k, v)) :
    ∀ p ∈ setK d k v, P p := by
  unfold setK
  by_cases h : (d.any fun p => p.1 == k) <;> simp only [h, if_true, if_false, Bool.false_eq_true]
  · intro p hp
    rw [List.mem_map] at hp
    obtain ⟨q, hq, rfl⟩ := hp
    by_cases hqk : q.1 = k <;> simp [hqk, hd q hq, hkv]
  · intro p hp
    rw [List.mem_append] at hp
    rcases hp with hp | hp
    · exact hd p hp
    · simp at hp; subst hp; exact hkv

lemma lookup_map_update_self {α : Type} (k : String) (v : α) :
    ∀ d : List (String × α), (∃ p ∈ d, p.1 = k) →
      lookupK (d.map fun p => if p.1 == k then (k, v) else p) k = some v := by
  intro d
  induction d with
  | nil => rintro ⟨p, hp, _⟩; cases hp
  | cons x xs ih =>
    rintro ⟨p, hp, hpk⟩
    by_cases hxk : x.1 = k
    · simp [lookupK, hxk]
    · have hw : ∃ p ∈ xs, p.1 = k := by
        rcases List.mem_cons.mp hp with rfl | hmem
        · exact absurd hpk hxk
        · exact ⟨p, hmem, hpk⟩
      simpa [lookupK, hxk] using ih hw

lemma lookup_map_update_other {α : Type} (k k' : String) (v : α) (h : k' ≠ k) :
    ∀ d : List (String × α),
      lookupK (d.map fun p => if p.1 == k then (k, v) else p) k' = lookupK d k' := by
  intro d
  induction d with
  | nil => rfl
  | cons x xs ih =>
    by_cases hxk : x.1 = k
    · have hne : (k == k') = false := by simp; exact fun e => h e.symm
      have hne2 : (x.1 == k') = false := by simp [hxk]; exact fun e => h e.symm
      simp only [List.map_cons, if_pos (by simp [hxk] : (x.1 == k) = true), lookupK, hne,
        hne2, if_neg, Bool.false_eq_true]
      exact ih
    · have hgx : (if x.1 == k then (k, v) else x) = x := by simp [hxk]
      simp only [List.map_cons, hgx, lookupK]
      by_cases hxk' : x.1 = k'
      · simp [hxk']
      · simpa [hxk'] using ih

lemma lookup_append_one_other {α : Type} (k k' : String) (v : α) (h : k' ≠ k) :
    ∀ d : List (String × α), lookupK (d ++ [(k, v)]) k' = lookupK d k' := by
  intro d
  induction d with
  | nil => simp [lookupK]; intro e; exact absurd e.symm h
  | cons x xs ih =>
    by_cases hxk' : x.1 = k' <;> simp [lookupK, hxk', ih]

lemma lookup_append_one_self {α : Type} (k : String) (v : α) :
    ∀ d : List (String × α), k ∉ keysOf d → lookupK (d ++ [(k, v)]) k = some v := by
  intro d
  induction d with
  | nil => simp [lookupK]
  | cons x xs ih =>
    intro hk
    simp only [keysOf, List.map_cons, List.mem_cons] at hk
    push_neg at hk
    have hne : (x.1 == k) = false := by simp; exact fun e => hk.1 e.symm
    simp only [List.cons_append, lookupK, hne, Bool.false_eq_true, if_neg]
    exact ih (by simpa [keysOf] using hk.2)

lemma lookup_setK_self {α : Type} (d : List (String × α)) (k : String) (v : α) :
    lookupK (setK d k v) k = some v := by
  unfold setK
  by_cases h : (d.any fun p => p.1 == k) <;>
    simp only [h, if_true, if_false, Bool.false_eq_true]
  · rw [List.any_eq_true] at h
    exact lookup_map_update_self k v d (by simpa using h)
  · apply lookup_append_one_self
    rw [← any_key_iff] at *
    simpa using h

lemma lookup_setK_other {α : Type} (d : List (String × α)) (k k' : String) (v : α)
    (h : k' ≠ k) : lookupK (setK d k v) k' = lookupK d k' := by
  unfold setK
  by_cases hany : (d.any fun p => p.1 == k) <;>
    simp only [hany, if_true, if_false, Bool.false_eq_true]
  · exact lookup_map_update_other k k' v h d
  · exact lookup_append_one_other k k' v h d

/-! ### Schema lemmas for `epigenetic_features` -/

lemma keys_predeclare_inner (base : String) (exts : List Int) :
    ∀ (d : List (String × ℚ)) (k : String),
      (k ∈ keysOf (exts.foldl (fun d ext => setK d (featKey base ext) 0) d) ↔
        k ∈ keysOf d ∨ ∃ e ∈ exts, k = featKey base e) := by
  induction exts with
  | nil => intro d k; simp
  | cons x xs ih =>
    intro d k
    simp only [List.foldl_cons, ih, mem_keysOf_setK, List.mem_cons]
    constructor
    · rintro ((hk | rfl) | ⟨e, he, rfl⟩)
      · exact Or.inl hk
      · exact Or.inr ⟨x, Or.inl rfl, rfl⟩
      · exact Or.inr ⟨e, Or.inr he, rfl⟩
    · rintro (hk | ⟨e, (rfl | he), rfl⟩)
      · exact Or.inl (Or.inl hk)
      · exact Or.inl (Or.inr rfl)
      · exact Or.inr ⟨e, he, rfl⟩

lemma keys_predeclare (expected : List String) (exts : List Int) (k : String) :
    k ∈ keysOf (_predeclare_zero_feats expected exts) ↔
      ∃ b ∈ expected, ∃ e ∈ exts, k = featKey b e := by
  unfold _predeclare_zero_feats
  suffices h : ∀ (l : List String) (d : List (String × ℚ)),
      k ∈ keysOf (l.foldl (fun d base =>
        exts.foldl (fun d ext => setK d (featKey base ext) 0) d) d) ↔
      k ∈ keysOf d ∨ ∃ b ∈ l, ∃ e ∈ exts, k = featKey b e by
    simpa [keysOf] using h expected []
  intro l
  induction l with
  | nil => intro d; simp
  | cons x xs ih =>
    intro d
    simp only [List.foldl_cons, ih, keys_predeclare_inner, List.mem_cons]
    constructor
    · rintro ((hk | ⟨e, he, rfl⟩) | ⟨b, hb, e, he, rfl⟩)
      · exact Or.inl hk
      · exact Or.inr ⟨x, Or.inl rfl, e, he, rfl⟩
      · exact Or.inr ⟨b, Or.inr hb, e, he, rfl⟩
    · rintro (hk | ⟨b, (rfl | hb), e, he, rfl⟩)
      · exact Or.inl (Or.inl hk)
      · exact Or.inl (Or.inr ⟨e, he, rfl⟩)
      · exact Or.inr ⟨b, hb, e, he, rfl⟩

lemma vals_predeclare (expected : List String) (exts : List Int) :
    ∀ p ∈ _predeclare_zero_feats expected exts, p.2 = 0 := by
  unfold _predeclare_zero_feats
  refine foldl_pres (fun d : List (String × ℚ) => ∀ p ∈ d, p.2 = 0) _ expected []
    (fun p hp => absurd hp (List.not_mem_nil p)) ?_
  intro d base _ hd
  refine foldl_pres (fun d : List (String × ℚ) => ∀ p ∈ d, p.2 = 0) _ exts d hd ?_
  intro d ext _ hd
  exact mem_setK_pres (fun p => p.2 = 0) d _ 0 hd rfl

lemma keys_mapFiles_sub (expected : List String) (dir : BigwigDir) :
    ∀ p ∈ _map_files_to_expected_names expected dir, p.1 ∈ expected := by
  unfold _map_files_to_expected_names
  by_cases h : dir.dirExists <;> simp only [h, Bool.not_true, Bool.not_false, if_true,
    if_false, Bool.false_eq_true]
  · refine foldl_pres (fun m : List (String × String) => ∀ p ∈ m, p.1 ∈ expected) _ expected []
      (fun p hp => absurd hp (List.not_mem_nil p)) ?_
    intro m e he hm
    unfold mapStep
    cases hsel : selectShortest (candsFor (diskIndex dir.files) e) with
    | none => simpa [hsel] using hm
    | some f =>
      simp only [hsel]
      exact mem_setK_pres (fun p => p.1 ∈ expected) m e f hm he
  · intro p hp; cases hp

lemma keysOf_overwriteVals (exts : List Int) (vals feats : List (String × ℚ))
    (fileMap : List (String × String))
    (hk : ∀ p ∈ fileMap, ∀ e ∈ exts, featKey p.1 e ∈ keysOf feats) :
    keysOf (overwriteVals exts vals feats fileMap) = keysOf feats := by
  unfold overwriteVals
  refine foldl_pres (fun f => keysOf f = keysOf feats) _ fileMap feats rfl ?_
  intro f p hp hf
  refine foldl_pres (fun f => keysOf f = keysOf feats) _ exts f hf ?_
  intro f ext hext hf
  cases hl : lookupK vals (featKey (pathStem p.2) ext) with
  | none => simpa [hl] using hf
  | some v =>
    simp only [hl]
    rw [keysOf_setK, if_pos]
    · exact hf
    · rw [any_key_iff, hf]
      exact hk p hp ext hext

/-! ### Claim theorems about `epigenetic_features` -/

/-- C3 counterexample: `epigenetic_features` *can* raise.  The ID
`"chr1:,-5"` matches the coordinate regex with coordinate group `","`, and
`int(",".replace(",", "")) = int("")` raises `ValueError` inside
`_parse_id_region`, outside every `try` block of `epigenetic_features`. -/
theorem epigenetic_features_can_raise :
    epigenetic_features ["H2AZ"] [0] ⟨false, []⟩ (fun _ _ _ _ _ => .ok [])
      ⟨"chr1:,-5", some 0, some 30⟩ = .error () := by
  rfl

/-- C3 (amended): for every row whose ID does not trigger the `int` failure
above (in particular for every ID with no parsable region at all),
`epigenetic_features` returns — without raising — a mapping whose key set is
exactly `{base}_{ext}` for the configured cross product, and when no region
token parses every value is `0.0`. -/
theorem epigenetic_features_schema (expected : List String) (extensions : List Int)
    (dir : BigwigDir) (query : SignalQuery) (row : EpiRow)
    (hp : _parse_id_region row.id ≠ .error ()) :
    ∃ d, epigenetic_features expected extensions dir query row = .ok d ∧
      (∀ k, k ∈ keysOf d ↔ ∃ b ∈ expected, ∃ e ∈ extensions, k = featKey b e) ∧
      (_parse_id_region row.id = .ok none → ∀ p ∈ d, p.2 = 0) := by
  unfold epigenetic_features
  match hparse : _parse_id_region row.id with
  | .error e => exact absurd hparse hp
  | .ok none =>
    exact ⟨_, rfl, fun k => keys_predeclare expected extensions k,
      fun _ => vals_predeclare expected extensions⟩
  | .ok (some (chrom, a, b)) =>
    have hnone : ((Except.ok (some (chrom, a, b)) : Except Unit (Option (String × Int × Int)))
        = Except.ok none →
        ∀ p ∈ _predeclare_zero_feats expected extensions, p.2 = 0) := by
      intro hcontra
      simp at hcontra
    match row.start, row.stop with
    | some offS, some offE =>
      by_cases hfm : (_map_files_to_expected_names expected dir).isEmpty
      · simp only [hfm, if_true]
        exact ⟨_, rfl, fun k => keys_predeclare expected extensions k, hnone⟩
      · simp only [hfm, if_false, Bool.false_eq_true]
        match query ((_map_files_to_expected_names expected dir).map Prod.snd)
            chrom (a + offS) (a + offE) extensions with
        | .error _ =>
          exact ⟨_, rfl, fun k => keys_predeclare expected extensions k, hnone⟩
        | .ok vals =>
          refine ⟨_, rfl, fun k => ?_, fun hcontra => by simp at hcontra⟩
          rw [keysOf_overwriteVals]
          · exact keys_predeclare expected extensions k
          · intro p hp e he
            rw [keys_predeclare]
            exact ⟨p.1, keys_mapFiles_sub expected dir p hp, e, he, rfl⟩
    | some offS, none =>
      exact ⟨_, rfl, fun k => keys_predeclare expected extensions k, hnone⟩
    | none, offE =>
      exact ⟨_, rfl, fun k => keys_predeclare expected extensions k, hnone⟩

/-- Witness for the amended C3: a concrete row with no region token yields the
full zero schema. -/
theorem epigenetic_features_schema_witness :
    (_parse_id_region "nocoord" ≠ .error ()) ∧
    (∃ d, epigenetic_features ["H2AZ"] [0] ⟨false, []⟩ (fun _ _ _ _ _ => .ok [])
        ⟨"nocoord", some 0, some 30⟩ = .ok d ∧
      (∀ k, k ∈ keysOf d ↔ ∃ b ∈ ["H2AZ"], ∃ e ∈ [(0 : Int)], k = featKey b e) ∧
      (_parse_id_region "nocoord" = .ok none → ∀ p ∈ d, p.2 = 0)) :=
  ⟨by simp [show _parse_id_region "nocoord" = .ok none from rfl],
    epigenetic_features_schema ["H2AZ"] [0] ⟨false, []⟩ (fun _ _ _ _ _ => .ok [])
      ⟨"nocoord", some 0, some 30⟩
      (by simp [show _parse_id_region "nocoord" = .ok none from rfl])⟩

/-- C6: when the candidate ID carries a parsable region token, the parsed
start is decremented by one exactly when strictly positive (coordinates parse
as naturals, so zero is the only other case); the signal query is issued over
`abs_start = parsed_start + Start`, `abs_end = parsed_start + End`; and a
non-coercible `Start`/`End` yields the all-zero schema. -/
theorem epigenetic_absolute_interval (expected : List String) (extensions : List Int)
    (dir : BigwigDir) (query : SignalQuery) (row : EpiRow) :
    (∀ g1 g2 g3 v w, searchFrom none row.id.data = some (g1, g2, g3) →
      pyInt g2 = .ok v → pyInt g3 = .ok w →
      ∃ chrom, _parse_id_region row.id =
        .ok (some (chrom, if 0 < (v : Int) then (v : Int) - 1 else (v : Int), (w : Int)))) ∧
    (∀ chrom ps pe offS offE, _parse_id_region row.id = .ok (some (chrom, ps, pe)) →
      row.start = some offS → row.stop = some offE →
      _map_files_to_expected_names expected dir ≠ [] →
      epigenetic_features expected extensions dir query row =
        .ok (match query ((_map_files_to_expected_names expected dir).map Prod.snd)
              chrom (ps + offS) (ps + offE) extensions with
          | .error _ => _predeclare_zero_feats expected extensions
          | .ok vals => overwriteVals extensions vals
              (_predeclare_zero_feats expected extensions)
              (_map_files_to_expected_names expected dir))) ∧
    (∀ chrom ps pe, _parse_id_region row.id = .ok (some (chrom, ps, pe)) →
      (row.start = none ∨ row.stop = none) →
      epigenetic_features expected extensions dir query row =
        .ok (_predeclare_zero_feats expected extensions)) := by
  refine ⟨?_, ?_, ?_⟩
  · intro g1 g2 g3 v w hsearch hv hw
    unfold _parse_id_region
    rw [hsearch]
    dsimp only
    rw [hv]
    dsimp only
    rw [hw]
    exact ⟨_, rfl⟩
  · intro chrom ps pe offS offE hparse hs hst hfm
    unfold epigenetic_features
    rw [hparse, hs, hst]
    have hne : (_map_files_to_expected_names expected dir).isEmpty = false := by
      simpa [List.isEmpty_iff] using hfm
    simp only [hne, Bool.false_eq_true, if_false]
    cases query ((_map_files_to_expected_names expected dir).map Prod.snd)
      chrom (ps + offS) (ps + offE) extensions <;> rfl
  · intro chrom ps pe hparse hor
    unfold epigenetic_features
    rw [hparse]
    rcases hor with hs | hst
    · rw [hs]
    · rw [hst]
      cases row.start <;> rfl

/-- Witness for C6: for ID `gene chr7:1,000-1030` (parsed start `1000`,
decremented to `999`) and offsets `Start = 2`, `End = 32`, the query is
issued at `chr7:1001-1031` — the oracle below errors on any other interval,
and the feature value `37` it returns lands in the schema. -/
theorem epigenetic_absolute_interval_witness :
    epigenetic_features ["H2AZ"] [0] ⟨true, ["H2AZ.bigwig"]⟩
      (fun _ chrom s e _ =>
        if chrom = "chr7" ∧ s = 1001 ∧ e = 1031 then .ok [("H2AZ_0", (37 : ℚ))]
        else .error "wrong interval")
      ⟨"gene chr7:1,000-1030", some 2, some 32⟩ = .ok [("H2AZ_0", (37 : ℚ))] := by
  have h := (epigenetic_absolute_interval ["H2AZ"] [0] ⟨true, ["H2AZ.bigwig"]⟩
    (fun _ chrom s e _ =>
      if chrom = "chr7" ∧ s = 1001 ∧ e = 1031 then .ok [("H2AZ_0", (37 : ℚ))]
      else .error "wrong interval")
    ⟨"gene chr7:1,000-1030", some 2, some 32⟩).2.1 "chr7" 999 1030 2 32
    (by rfl) rfl rfl (by decide)
  rw [h]
  rfl

/-! ### Lemmas for `_map_files_to_expected_names` (C9) -/

lemma length_lowerStr (s : String) : (lowerStr s).length = s.length := by
  simp [lowerStr]

lemma diskIndex_pairs (files : List String) :
    ∀ p ∈ diskIndex files, p.2 ∈ files ∧ p.1 = lowerStr p.2 := by
  unfold diskIndex
  refine foldl_pres
    (fun d : List (String × String) => ∀ p ∈ d, p.2 ∈ files ∧ p.1 = lowerStr p.2)
    _ files [] (fun p hp => absurd hp (List.not_mem_nil p)) ?_
  intro d name hname hd
  exact mem_setK_pres (fun p => p.2 ∈ files ∧ p.1 = lowerStr p.2) d _ _ hd ⟨hname, rfl⟩

lemma diskIndex_keys_mono (l : List String) :
    ∀ (acc : List (String × String)) (k : String), k ∈ keysOf acc →
      k ∈ keysOf (l.foldl (fun d n => setK d (lowerStr n) n) acc) := by
  induction l with
  | nil => intro acc k hk; exact hk
  | cons x xs ih =>
    intro acc k hk
    exact ih _ k ((mem_keysOf_setK acc (lowerStr x) x k).mpr (Or.inl hk))

lemma diskIndex_key_present (files : List String) :
    ∀ f ∈ files, lowerStr f ∈ keysOf (diskIndex files) := by
  unfold diskIndex
  suffices h : ∀ (l : List String) (acc : List (String × String)), ∀ f ∈ l,
      lowerStr f ∈ keysOf (l.foldl (fun d n => setK d (lowerStr n) n) acc) by
    intro f hf; exact h files [] f hf
  intro l
  induction l with
  | nil => intro acc f hf; cases hf
  | cons x xs ih =>
    intro acc f hf
    rcases List.mem_cons.mp hf with rfl | hmem
    · exact diskIndex_keys_mono xs _ _
        ((mem_keysOf_setK acc (lowerStr f) f (lowerStr f)).mpr (Or.inr rfl))
    · exact ih _ f hmem

lemma exists_pair_of_key {α : Type} (d : List (String × α)) (k : String)
    (h : k ∈ keysOf d) : ∃ p ∈ d, p.1 = k := by
  simpa [keysOf] using h

lemma argmin_spec :
    ∀ (xs : List String) (x : String),
      ((xs.foldl (fun b f => if f.length < b.length then f else b) x) = x ∨
        (xs.foldl (fun b f => if f.length < b.length then f else b) x) ∈ xs) ∧
      (xs.foldl (fun b f => if f.length < b.length then f else b) x).length ≤ x.length ∧
      (∀ c ∈ xs, (xs.foldl (fun b f => if f.length < b.length then f else b) x).length
        ≤ c.length) := by
  intro xs
  induction xs with
  | nil => intro x; exact ⟨Or.inl rfl, le_refl _, fun c hc => absurd hc (List.not_mem_nil c)⟩
  | cons y ys ih =>
    intro x
    simp only [List.foldl_cons]
    obtain ⟨hmem, hle, hall⟩ := ih (if y.length < x.length then y else x)
    have hstep_le_x : (if y.length < x.length then y else x).length ≤ x.length := by
      split_ifs with hxy
      · omega
      · exact le_refl _
    have hstep_le_y : (if y.length < x.length then y else x).length ≤ y.length := by
      split_ifs with hxy
      · exact le_refl _
      · omega
    refine ⟨?_, le_trans hle hstep_le_x, ?_⟩
    · rcases hmem with heq | hmem
      · rw [heq]
        split_ifs with hxy
        · exact Or.inr (List.mem_cons_self y ys)
        · exact Or.inl rfl
      · exact Or.inr (List.mem_cons_of_mem y hmem)
    · intro c hc
      rcases List.mem_cons.mp hc with rfl | hc
      · exact le_trans hle hstep_le_y
      · exact hall c hc

lemma selectShortest_spec (l : List String) (g : String)
    (h : selectShortest l = some g) : g ∈ l ∧ ∀ c ∈ l, g.length ≤ c.length := by
  match l, h with
  | x :: xs, h =>
    simp only [selectShortest, Option.some.injEq] at h
    obtain ⟨hmem, hle, hall⟩ := argmin_spec xs x
    rw [h] at hmem hle hall
    constructor
    · rcases hmem with rfl | hmem
      · exact List.mem_cons_self _ _
      · exact List.mem_cons_of_mem x hmem
    · intro c hc
      rcases List.mem_cons.mp hc with rfl | hc
      · exact hle
      · exact hall c hc

lemma selectShortest_isSome (l : List String) (h : l ≠ []) :
    ∃ g, selectShortest l = some g := by
  match l, h with
  | x :: xs, _ => exact ⟨_, rfl⟩

lemma lookup_mapFold_notin (disk : List (String × String)) (e : String) :
    ∀ (l : List String) (m : List (String × String)), e ∉ l →
      lookupK (l.foldl (mapStep disk) m) e = lookupK m e := by
  intro l
  induction l with
  | nil => intro m _; rfl
  | cons x xs ih =>
    intro m hm
    simp only [List.mem_cons] at hm
    push_neg at hm
    rw [List.foldl_cons, ih _ hm.2]
    unfold mapStep
    cases hsel : selectShortest (candsFor disk x) with
    | none => rfl
    | some f => exact lookup_setK_other m x e f hm.1

lemma lookup_mapFold_some (disk : List (String × String)) (e g : String)
    (hg : selectShortest (candsFor disk e) = some g) :
    ∀ (l : List String) (m : List (String × String)), e ∈ l →
      lookupK (l.foldl (mapStep disk) m) e = some g := by
  intro l
  induction l with
  | nil => intro m hm; cases hm
  | cons x xs ih =>
    intro m hm
    by_cases hex : e ∈ xs
    · exact ih _ hex
    · have hx : e = x := by
        rcases List.mem_cons.mp hm with rfl | hmem
        · rfl
        · exact absurd hmem hex
      subst hx
      rw [List.foldl_cons, lookup_mapFold_notin disk e xs _ hex]
      unfold mapStep
      rw [hg]
      exact lookup_setK_self m e g

lemma lookup_mapFold_none (disk : List (String × String)) (e : String)
    (hg : selectShortest (candsFor disk e) = none) :
    ∀ (l : List String) (m : List (String × String)),
      lookupK (l.foldl (mapStep disk) m) e = lookupK m e := by
  intro l
  induction l with
  | nil => intro m; rfl
  | cons x xs ih =>
    intro m
    rw [List.foldl_cons, ih]
    by_cases hx : x = e
    · subst hx
      unfold mapStep
      rw [hg]
    · unfold mapStep
      cases hsel : selectShortest (candsFor disk x) with
      | none => rfl
      | some f => exact lookup_setK_other m x e f (fun hc => hx hc.symm)

/-- C9: whenever some file of the signal directory matches an expected source
name by case-insensitive prefix, the resolver binds that name to a matching
file of minimal file-name length; expected names with no matching file are
absent from the mapping. -/
theorem map_files_shortest_match (expected : List String) (dir : BigwigDir)
    (hdir : dir.dirExists = true) (e : String) (he : e ∈ expected) :
    ((∃ f ∈ dir.files, leadsWith (lowerStr e).data (lowerStr f).data = true) →
      ∃ g, lookupK (_map_files_to_expected_names expected dir) e = some g ∧
        g ∈ dir.files ∧ leadsWith (lowerStr e).data (lowerStr g).data = true ∧
        ∀ f ∈ dir.files, leadsWith (lowerStr e).data (lowerStr f).data = true →
          g.length ≤ f.length) ∧
    ((∀ f ∈ dir.files, leadsWith (lowerStr e).data (lowerStr f).data = false) →
      lookupK (_map_files_to_expected_names expected dir) e = none) := by
  have hmap : _map_files_to_expected_names expected dir =
      expected.foldl (mapStep (diskIndex dir.files)) [] := by
    unfold _map_files_to_expected_names
    rw [hdir]
    rfl
  constructor
  · rintro ⟨f, hf, hmatch⟩
    have hkey := diskIndex_key_present dir.files f hf
    obtain ⟨p, hp, hpk⟩ := exists_pair_of_key _ _ hkey
    have hpfilter : leadsWith (lowerStr e).data p.1.data = true := by
      rw [hpk]; exact hmatch
    have hpcand : p.2 ∈ candsFor (diskIndex dir.files) e := by
      unfold candsFor
      exact List.mem_map_of_mem Prod.snd (List.mem_filter.mpr ⟨hp, hpfilter⟩)
    have hne : candsFor (diskIndex dir.files) e ≠ [] := by
      intro hnil; rw [hnil] at hpcand; cases hpcand
    obtain ⟨g, hg⟩ := selectShortest_isSome _ hne
    obtain ⟨hgmem, hgmin⟩ := selectShortest_spec _ _ hg
    unfold candsFor at hgmem
    rw [List.mem_map] at hgmem
    obtain ⟨q, hqf, hq2⟩ := hgmem
    rw [List.mem_filter] at hqf
    obtain ⟨hqdisk, hqmatch⟩ := hqf
    obtain ⟨hq2files, hq1lower⟩ := diskIndex_pairs dir.files q hqdisk
    refine ⟨g, ?_, ?_, ?_, ?_⟩
    · rw [hmap]
      exact lookup_mapFold_some _ e g hg expected [] he
    · rw [← hq2]; exact hq2files
    · rw [← hq2, ← hq1lower]; exact hqmatch
    · intro f' hf' hmatch'
      have hkey' := diskIndex_key_present dir.files f' hf'
      obtain ⟨q', hq', hq'k⟩ := exists_pair_of_key _ _ hkey'
      have hq'filter : leadsWith (lowerStr e).data q'.1.data = true := by
        rw [hq'k]; exact hmatch'
      have hq'cand : q'.2 ∈ candsFor (diskIndex dir.files) e := by
        unfold candsFor
        exact List.mem_map_of_mem Prod.snd (List.mem_filter.mpr ⟨hq', hq'filter⟩)
      have hlen := hgmin q'.2 hq'cand
      have hq'pairs := diskIndex_pairs dir.files q' hq'
      have hlenq : q'.2.length = f'.length := by
        have h1 : (lowerStr q'.2).length = (lowerStr f').length := by
          rw [← hq'pairs.2, hq'k]
        rw [length_lowerStr, length_lowerStr] at h1
        exact h1
      rw [hlenq] at hlen
      exact hlen
  · intro hnone
    have hcands : candsFor (diskIndex dir.files) e = [] := by
      unfold candsFor
      have hfil : (diskIndex dir.files).filter
          (fun p => leadsWith (lowerStr e).data p.1.data) = [] := by
        rw [List.filter_eq_nil_iff]
        intro q hq
        obtain ⟨hq2, hq1⟩ := diskIndex_pairs dir.files q hq
        simp only [hq1]
        rw [hnone q.2 hq2]
        simp
      rw [hfil, List.map_nil]
    rw [hmap, lookup_mapFold_none _ e (by rw [hcands]; rfl) expected []]
    rfl

/-- Witness for C9: with files `h2az_long.bigwig` and `H2AZ.bigwig` on disk,
the expected name `H2AZ` resolves, to a matching file of minimal length. -/
theorem map_files_shortest_match_witness :
    (∃ f ∈ (BigwigDir.mk true ["h2az_long.bigwig", "H2AZ.bigwig"]).files,
      leadsWith (lowerStr "H2AZ").data (lowerStr f).data = true) ∧
    (∃ g, lookupK (_map_files_to_expected_names ["H2AZ"]
          (BigwigDir.mk true ["h2az_long.bigwig", "H2AZ.bigwig"])) "H2AZ" = some g ∧
      g ∈ (BigwigDir.mk true ["h2az_long.bigwig", "H2AZ.bigwig"]).files ∧
      leadsWith (lowerStr "H2AZ").data (lowerStr g).data = true ∧
      ∀ f ∈ (BigwigDir.mk true ["h2az_long.bigwig", "H2AZ.bigwig"]).files,
        leadsWith (lowerStr "H2AZ").data (lowerStr f).data = true →
          g.length ≤ f.length) :=
  ⟨⟨"H2AZ.bigwig", by decide, by decide⟩,
    (map_files_shortest_match ["H2AZ"] (BigwigDir.mk true ["h2az_long.bigwig", "H2AZ.bigwig"])
      rfl "H2AZ" (by decide)).1 ⟨"H2AZ.bigwig", by decide, by decide⟩⟩

/-! ### Embedding of `models.py` -/

/-- Python `s.split(sep)` for a one-character separator.  (The result list is
never empty: the current fragment is extended in place.) -/
def splitOnChar (sep : Char) : List Char → List (List Char)
  | [] => [[]]
  | c :: rest =>
    let r := splitOnChar sep rest
    if c == sep then [] :: r
    else (c :: r.headD []) :: r.tail

/-- Python `s.isdigit()` (ASCII model): nonempty and all digits. -/
def isDigitStr (s : List Char) : Bool := !s.isEmpty && s.all (·.isDigit)

/-- The per-column renaming of `fix_column_names_for_xgboost`:
`pos<k>_<base> -> <base><k+1>` and `di<k>_<pair> -> <pair><k+1>`; anything
else is kept. -/
def renameCol (col : String) : String :=
  let cs := col.data
  if leadsWith ['p', 'o', 's'] cs && cs.contains '_' then
    match splitOnChar '_' cs with
    | [p0, p1] =>
      if isDigitStr (p0.drop 3) then ⟨p1 ++ (Nat.repr (decimalVal (p0.drop 3) + 1)).data⟩
      else col
    | _ => col
  else if leadsWith ['d', 'i'] cs && cs.contains '_' then
    match splitOnChar '_' cs with
    | [p0, p1] =>
      if isDigitStr (p0.drop 2) then ⟨p1 ++ (Nat.repr (decimalVal (p0.drop 2) + 1)).data⟩
      else col
    | _ => col
  else col

/-- One column of the pandas feature table: name, numeric dtype flag, values. -/
structure DFCol where
  name : String
  isNumeric : Bool
  vals : List ℚ
  deriving DecidableEq, Repr

/-- The feature DataFrame: a row count and the columns. -/
structure DF where
  nrows : Nat
  cols : List DFCol
  deriving DecidableEq, Repr

/-- `fix_column_names_for_xgboost(df)` from `models.py` (a pure rename). -/
def fix_column_names_for_xgboost (df : DF) : DF :=
  ⟨df.nrows, df.cols.map fun c => ⟨renameCol c.name, c.isNumeric, c.vals⟩⟩

/-- `df.select_dtypes(include=[np.number])`. -/
def numericOnly (df : DF) : DF := ⟨df.nrows, df.cols.filter (·.isNumeric)⟩

/-- `df.values`: the row-major numeric array. -/
def dfValues (df : DF) : List (List ℚ) :=
  (List.range df.nrows).map fun i => df.cols.map fun c => c.vals.getD i 0

/-- What is passed to a model: either the labelled frame or the raw array. -/
inductive DataArg
  | named (df : DF)
  | raw (rows : List (List ℚ))
  deriving DecidableEq

/-- A Python exception as the scorer observes it: its message and whether it
is an `AttributeError` (the only class `_predict_safe` catches itself). -/
structure PyErr where
  msg : String
  isAttrError : Bool
  deriving DecidableEq, Repr

/-- A 2-dimensional `predict_proba` result (`ndim == 2`; scikit-learn's
class-probability contract), with its column count and rows. -/
structure NArr2 where
  ncols : Nat
  rows : List (List ℚ)
  deriving DecidableEq, Repr

/-- A model artifact: an optional `predict_proba` (absent when
`hasattr(model, "predict_proba")` is false) and a `predict`, both of which may
raise. -/
structure MLModel where
  predictProba : Option (DataArg → Except PyErr NArr2)
  predict : DataArg → Except PyErr (List ℚ)

/-- The data `_predict_safe` passes to the model: numeric columns only, as a
labelled frame, or as `X_clean.values` when `strip_names` is set. -/
def dataArg (df : DF) (stripNames : Bool) : DataArg :=
  let xc := numericOnly df
  if stripNames then .raw (dfValues xc) else .named xc

/-- `proba.max(axis=1)` on one row. -/
def rowMax (r : List ℚ) : ℚ := r.foldl max (r.headD 0)

/-- `_predict_safe(model, X, strip_names)` from `models.py`. -/
def _predict_safe (m : MLModel) (X : DF) (stripNames : Bool) : Except PyErr (List ℚ) :=
  let d := dataArg X stripNames
  match m.predictProba with
  | some f =>
    match f d with
    | .ok proba =>
      if proba.ncols == 2 then .ok (proba.rows.map fun r => r.getD 1 0)
      else .ok (proba.rows.map rowMax)
    | .error e => if e.isAttrError then m.predict d else .error e
  | none => m.predict d

/-- The error-message sniffing of `score_with_models`:
`"feature" in err.lower() or "data did not have" in err.lower() or "mismatch" in err.lower()`. -/
def mismatchErr (msg : String) : Bool :=
  let l := msg.data.map Char.toLower
  containsSub l "feature".data || containsSub l "data did not have".data ||
    containsSub l "mismatch".data

/-- One score column: real values, or the `np.nan` fill after total failure. -/
inductive ScoreCol
  | scores (v : List ℚ)
  | nanFill
  deriving DecidableEq, Repr

/-- The per-model body of the scoring loop: tier 1 as-is; on a
mismatch-shaped error tier 2 with renamed columns; then tier 3 with the raw
array; `nanFill` when all three fail, and also immediately on a
non-mismatch-shaped tier-1 error. -/
def scoreOne (m : MLModel) (X : DF) : ScoreCol :=
  match _predict_safe m X false with
  | .ok v => .scores v
  | .error e1 =>
    if mismatchErr e1.msg then
      match _predict_safe m (fix_column_names_for_xgboost X) false with
      | .ok v => .scores v
      | .error _ =>
        match _predict_safe m (fix_column_names_for_xgboost X) true with
        | .ok v => .scores v
        | .error _ => .nanFill
    else .nanFill

/-- pandas `df.empty`. -/
def dfEmpty (df : DF) : Bool := df.nrows == 0 || df.cols.isEmpty

/-- `score_with_models(features_df, models)` from `models.py`: early return on
an empty frame or registry, else one result column per model, written into the
results dict in loop order. -/
def score_with_models (X : DF) (models : List (String × MLModel)) :
    List (String × ScoreCol) :=
  if dfEmpty X || models.isEmpty then []
  else models.foldl (fun results p => setK results p.1 (scoreOne p.2 X)) []

/-- Python `s.replace(pat, rep)` for a nonempty `pat`: replace every
non-overlapping occurrence, scanning left to right.  The fuel argument (the
length of the remaining input at the call site) only enforces structural
recursion; one unit is spent per step and each step consumes at least one
input character, so it never runs out. -/
def replaceSubFuel (pat rep : List Char) : Nat → List Char → List Char
  | 0, s => s
  | _, [] => []
  | fuel + 1, c :: rest =>
    if leadsWith pat (c :: rest) && !pat.isEmpty then
      rep ++ replaceSubFuel pat rep fuel ((c :: rest).drop pat.length)
    else c :: replaceSubFuel pat rep fuel rest

/-- Python `s.replace(pat, rep)` (for the nonempty patterns `load_models`
uses). -/
def pyReplace (s pat rep : String) : String :=
  ⟨replaceSubFuel pat.data rep.data s.data.length s.data⟩

/-- The display-name normalization of `load_models`:
`p.stem.replace("_xgb_clf", "").replace("_xgb", "").replace("_clf", "")`. -/
def cleanName (stem : String) : String :=
  pyReplace (pyReplace (pyReplace stem "_xgb_clf" "") "_xgb" "") "_clf" ""

/-- `load_models(model_dir)` from `models.py`: `dirExists = false` models a
`None` or nonexistent directory; `files` is
`sorted(glob("*.pkl")) + sorted(glob("*.joblib"))`; `loader` is
`joblib.load`, which may fail per file.  Failed files are skipped, loaded
ones registered under their cleaned stem. -/
def load_models {M : Type} (dirExists : Bool) (files : List String)
    (loader : String → Except String M) : List (String × M) :=
  if !dirExists then []
  else
    files.foldl (fun models p =>
      match loader p with
      | .ok m => setK models (cleanName (pathStem p)) m
      | .error _ => models) []

/-! ### Lemmas and claim theorems for `models.py` -/

lemma setK_notin {α : Type} (d : List (String × α)) (k : String) (v : α)
    (h : k ∉ keysOf d) : setK d k v = d ++ [(k, v)] := by
  unfold setK
  rw [if_neg]
  intro hc
  exact h ((any_key_iff d k).mp hc)

lemma load_keys_mono {M : Type} (loader : String → Except String M) :
    ∀ (l : List String) (acc : List (String × M)) (k : String), k ∈ keysOf acc →
      k ∈ keysOf (l.foldl (fun models p =>
        match loader p with
        | .ok m => setK models (cleanName (pathStem p)) m
        | .error _ => models) acc) := by
  intro l
  induction l with
  | nil => intro acc k hk; exact hk
  | cons x xs ih =>
    intro acc k hk
    rw [List.foldl_cons]
    apply ih
    cases hlx : loader x with
    | ok m =>
      simp only [hlx]
      exact (mem_keysOf_setK acc _ m k).mpr (Or.inl hk)
    | error e => simpa only [hlx] using hk

/-- C8: `load_models` is total; a missing directory yields an empty registry;
every artifact whose deserialization succeeds is registered (whatever other
files do); and a directory holding one corrupt and one valid artifact yields
exactly the one valid entry. -/
theorem load_models_robust {M : Type} (loader : String → Except String M) :
    (∀ files, load_models false files loader = []) ∧
    (∀ files f m, f ∈ files → loader f = .ok m →
      cleanName (pathStem f) ∈ keysOf (load_models true files loader)) ∧
    (∀ f₁ f₂ err m, loader f₁ = .error err → loader f₂ = .ok m →
      load_models true [f₁, f₂] loader = [(cleanName (pathStem f₂), m)]) := by
  refine ⟨fun files => rfl, ?_, ?_⟩
  · intro files f m hf hok
    unfold load_models
    simp only [Bool.not_true, Bool.false_eq_true, if_false]
    suffices h : ∀ (l : List String) (acc : List (String × M)), f ∈ l →
        cleanName (pathStem f) ∈ keysOf (l.foldl (fun models p =>
          match loader p with
          | .ok m => setK models (cleanName (pathStem p)) m
          | .error _ => models) acc) from h files [] hf
    intro l
    induction l with
    | nil => intro acc hfl; cases hfl
    | cons x xs ih =>
      intro acc hfl
      rcases List.mem_cons.mp hfl with rfl | hmem
      · simp only [List.foldl_cons, hok]
        exact load_keys_mono loader xs _ _
          ((mem_keysOf_setK acc (cleanName (pathStem f)) m _).mpr (Or.inr rfl))
      · exact ih _ hmem
  · intro f₁ f₂ err m herr hok
    unfold load_models
    simp only [List.foldl_cons, List.foldl_nil, herr, hok, Bool.not_true,
      Bool.false_eq_true, if_false]
    rfl

/-- Witness for C8: a directory with one corrupt and one valid artifact
yields exactly the one valid entry, under its cleaned display name. -/
theorem load_models_robust_witness :
    ((fun f => if f == "bad.pkl" then (.error "corrupt" : Except String Nat) else .ok 7)
      "bad.pkl" = .error "corrupt") ∧
    load_models true ["bad.pkl", "good_xgb_clf.pkl"]
      (fun f => if f == "bad.pkl" then (.error "corrupt" : Except String Nat) else .ok 7) =
      [("good", 7)] :=
  ⟨rfl, by
    have h := (load_models_robust
      (fun f => if f == "bad.pkl" then (.error "corrupt" : Except String Nat) else .ok 7)).2.2
      "bad.pkl" "good_xgb_clf.pkl" "corrupt" 7 rfl rfl
    exact h⟩

lemma numericOnly_idem (df : DF) : numericOnly (numericOnly df) = numericOnly df := by
  unfold numericOnly
  simp [List.filter_filter]

/-- C7: `_predict_safe` restricts to numeric columns only; with a
class-probability interface and a two-column probability matrix the score is
the second column; with any other column count it is the per-row maximum; and
without the interface it is the raw prediction. -/
theorem predict_proba_semantics (m : MLModel) (X : DF) (strip : Bool) :
    (∀ f p, m.predictProba = some f → f (dataArg X strip) = .ok p → p.ncols = 2 →
      _predict_safe m X strip = .ok (p.rows.map fun r => r.getD 1 0)) ∧
    (∀ f p, m.predictProba = some f → f (dataArg X strip) = .ok p → p.ncols ≠ 2 →
      _predict_safe m X strip = .ok (p.rows.map rowMax)) ∧
    (m.predictProba = none → _predict_safe m X strip = m.predict (dataArg X strip)) ∧
    dataArg X strip = dataArg (numericOnly X) strip := by
  refine ⟨?_, ?_, ?_, ?_⟩
  · intro f p hf hp h2
    unfold _predict_safe
    rw [hf]
    dsimp only
    rw [hp]
    simp [h2]
  · intro f p hf hp h2
    unfold _predict_safe
    rw [hf]
    dsimp only
    rw [hp]
    simp [h2]
  · intro hnone
    unfold _predict_safe
    rw [hnone]
  · unfold dataArg
    rw [numericOnly_idem]

/-- Witness for C7: a concrete two-class classifier maps a one-row table to
the positive-class probability column. -/
theorem predict_proba_semantics_witness :
    _predict_safe
      (MLModel.mk (some fun _ => .ok ⟨2, [[(1 : ℚ)/4, (3 : ℚ)/4]]⟩)
        (fun _ => .error ⟨"unused", false⟩))
      (DF.mk 1 [⟨"a", true, [(1 : ℚ)]⟩]) false = .ok [(3 : ℚ)/4] := by
  have h := (predict_proba_semantics
    (MLModel.mk (some fun _ => .ok ⟨2, [[(1 : ℚ)/4, (3 : ℚ)/4]]⟩)
      (fun _ => .error ⟨"unused", false⟩))
    (DF.mk 1 [⟨"a", true, [(1 : ℚ)]⟩]) false).1
    (fun _ => .ok ⟨2, [[(1 : ℚ)/4, (3 : ℚ)/4]]⟩) ⟨2, [[(1 : ℚ)/4, (3 : ℚ)/4]]⟩ rfl rfl rfl
  rw [h]
  rfl

lemma splitOnChar_cons (sep c : Char) (rest : List Char) :
    splitOnChar sep (c :: rest) =
      if c == sep then [] :: splitOnChar sep rest
      else (c :: (splitOnChar sep rest).headD []) :: (splitOnChar sep rest).tail := rfl

lemma splitOnChar_no_sep (sep : Char) :
    ∀ cs : List Char, sep ∉ cs → splitOnChar sep cs = [cs] := by
  intro cs
  induction cs with
  | nil => intro _; rfl
  | cons c rest ih =>
    intro h
    simp only [List.mem_cons] at h
    push_neg at h
    rw [splitOnChar_cons, if_neg (by simp; exact fun e => h.1 e.symm), ih h.2]
    rfl

lemma splitOnChar_sep_append (sep : Char) :
    ∀ xs ys : List Char, sep ∉ xs →
      splitOnChar sep (xs ++ sep :: ys) = xs :: splitOnChar sep ys := by
  intro xs
  induction xs with
  | nil =>
    intro ys _
    simp only [List.nil_append]
    rw [splitOnChar_cons, if_pos (by simp)]
  | cons x xs ih =>
    intro ys h
    simp only [List.mem_cons] at h
    push_neg at h
    simp only [List.cons_append]
    rw [splitOnChar_cons, if_neg (by simp; exact fun e => h.1 e.symm), ih ys h.2]
    rfl

lemma scores_foldl_eq_map (X : DF) :
    ∀ (models : List (String × MLModel)) (acc : List (String × ScoreCol)),
      (models.map Prod.fst).Nodup → (∀ p ∈ models, p.1 ∉ keysOf acc) →
      models.foldl (fun results p => setK results p.1 (scoreOne p.2 X)) acc =
        acc ++ models.map (fun p => (p.1, scoreOne p.2 X)) := by
  intro models
  induction models with
  | nil => intro acc _ _; simp
  | cons q qs ih =>
    intro acc hnd hnin
    rw [List.foldl_cons]
    have hq : q.1 ∉ keysOf acc := hnin q (List.mem_cons_self q qs)
    rw [setK_notin acc q.1 _ hq]
    simp only [List.map_cons] at hnd
    obtain ⟨hq1, hqs⟩ := List.nodup_cons.mp hnd
    rw [ih (acc ++ [(q.1, scoreOne q.2 X)]) hqs ?_]
    · simp
    · intro p hp
      unfold keysOf
      rw [List.map_append, List.mem_append]
      rintro (hin | hin)
      · exact hnin p (List.mem_cons_of_mem q hp) hin
      · simp only [List.map_cons, List.map_nil, List.mem_cons, List.not_mem_nil,
          or_false] at hin
        exact hq1 (hin ▸ List.mem_map_of_mem Prod.fst hp)

/-- C4: with unique model names and a nonempty frame and registry, the score
table is exactly one independently computed column per model (so one model's
failure never touches another's column); a mismatch-shaped tier-1 error is
retried with renamed columns and a tier-2 success populates the column; when
tier 2 also fails, tier 3 runs on the raw array and only its failure yields
the NaN fill; and the renaming convention maps `pos<k>_<base>` to
`<base><k+1>` and `di<k>_<pair>` to `<pair><k+1>`. -/
theorem score_fallback_tiers (X : DF) (models : List (String × MLModel)) :
    ((models.map Prod.fst).Nodup → (dfEmpty X || models.isEmpty) = false →
      score_with_models X models = models.map fun p => (p.1, scoreOne p.2 X)) ∧
    (∀ m v e1, _predict_safe m X false = .error e1 → mismatchErr e1.msg = true →
      _predict_safe m (fix_column_names_for_xgboost X) false = .ok v →
      scoreOne m X = .scores v) ∧
    (∀ m e1 e2, _predict_safe m X false = .error e1 → mismatchErr e1.msg = true →
      _predict_safe m (fix_column_names_for_xgboost X) false = .error e2 →
      scoreOne m X = (match _predict_safe m (fix_column_names_for_xgboost X) true with
        | .ok v => ScoreCol.scores v
        | .error _ => ScoreCol.nanFill)) ∧
    (∀ ds base : List Char, ds ≠ [] → (∀ c ∈ ds, c.isDigit = true) → '_' ∉ base →
      renameCol ⟨'p' :: 'o' :: 's' :: (ds ++ '_' :: base)⟩ =
        ⟨base ++ (Nat.repr (decimalVal ds + 1)).data⟩ ∧
      renameCol ⟨'d' :: 'i' :: (ds ++ '_' :: base)⟩ =
        ⟨base ++ (Nat.repr (decimalVal ds + 1)).data⟩) := by
  refine ⟨?_, ?_, ?_, ?_⟩
  · intro hnd hne
    unfold score_with_models
    rw [hne, if_neg (by simp)]
    simpa using scores_foldl_eq_map X models [] hnd
      (fun p _ hin => absurd hin (List.not_mem_nil p.1))
  · intro m v e1 h1 hmm h2
    unfold scoreOne
    rw [h1]
    dsimp only
    rw [if_pos hmm, h2]
  · intro m e1 e2 h1 hmm h2
    unfold scoreOne
    rw [h1]
    dsimp only
    rw [if_pos hmm, h2]
  · intro ds base hne hds hbase
    have hdsub : '_' ∉ ds := fun hin => absurd (hds '_' hin) (by decide)
    have hsep_pos : '_' ∉ ('p' :: 'o' :: 's' :: ds) := by
      simp only [List.mem_cons]
      push_neg
      exact ⟨by decide, by decide, by decide, hdsub⟩
    have hsep_di : '_' ∉ ('d' :: 'i' :: ds) := by
      simp only [List.mem_cons]
      push_neg
      exact ⟨by decide, by decide, hdsub⟩
    have hdig : isDigitStr ds = true := by
      simp only [isDigitStr, Bool.and_eq_true, Bool.not_eq_true', List.all_eq_true]
      exact ⟨by simpa [List.isEmpty_iff] using hne, fun c hc => hds c hc⟩
    constructor
    · unfold renameCol
      dsimp only
      rw [if_pos (show (leadsWith ['p', 'o', 's'] ('p' :: 'o' :: 's' :: (ds ++ '_' :: base))
          && ('p' :: 'o' :: 's' :: (ds ++ '_' :: base)).contains '_') = true from by
        refine Bool.and_eq_true_iff.mpr ⟨by simp [leadsWith], ?_⟩
        exact List.elem_eq_true_of_mem (by simp))]
      rw [show ('p' :: 'o' :: 's' :: (ds ++ '_' :: base) : List Char) =
          ('p' :: 'o' :: 's' :: ds) ++ '_' :: base from by simp]
      rw [splitOnChar_sep_append '_' _ base hsep_pos, splitOnChar_no_sep '_' base hbase]
      dsimp only
      rw [show (('p' :: 'o' :: 's' :: ds).drop 3 : List Char) = ds from rfl, if_pos hdig]
    · unfold renameCol
      dsimp only
      rw [if_neg (show ¬ (leadsWith ['p', 'o', 's'] ('d' :: 'i' :: (ds ++ '_' :: base))
          && ('d' :: 'i' :: (ds ++ '_' :: base)).contains '_') = true from by
        simp [leadsWith])]
      rw [if_pos (show (leadsWith ['d', 'i'] ('d' :: 'i' :: (ds ++ '_' :: base))
          && ('d' :: 'i' :: (ds ++ '_' :: base)).contains '_') = true from by
        refine Bool.and_eq_true_iff.mpr ⟨by simp [leadsWith], ?_⟩
        exact List.elem_eq_true_of_mem (by simp))]
      rw [show ('d' :: 'i' :: (ds ++ '_' :: base) : List Char) =
          ('d' :: 'i' :: ds) ++ '_' :: base from by simp]
      rw [splitOnChar_sep_append '_' _ base hsep_di, splitOnChar_no_sep '_' base hbase]
      dsimp only
      rw [show (('d' :: 'i' :: ds).drop 2 : List Char) = ds from rfl, if_pos hdig]

/-- Witness for C4: a model that rejects the original column names with a
feature-mismatch error but accepts the renamed ones gets a populated score
column at tier 2. -/
theorem score_fallback_tiers_witness :
    (_predict_safe
        (MLModel.mk none fun d => match d with
          | .named df => if df.cols.any (fun c => c.name == "A1") then .ok [(5 : ℚ)]
            else .error ⟨"feature_names mismatch", false⟩
          | .raw _ => .error ⟨"shape", false⟩)
        (DF.mk 1 [⟨"pos0_A", true, [(1 : ℚ)]⟩]) false =
      .error ⟨"feature_names mismatch", false⟩) ∧
    (mismatchErr "feature_names mismatch" = true) ∧
    scoreOne
      (MLModel.mk none fun d => match d with
        | .named df => if df.cols.any (fun c => c.name == "A1") then .ok [(5 : ℚ)]
          else .error ⟨"feature_names mismatch", false⟩
        | .raw _ => .error ⟨"shape", false⟩)
      (DF.mk 1 [⟨"pos0_A", true, [(1 : ℚ)]⟩]) = .scores [(5 : ℚ)] := by
  refine ⟨rfl, rfl, ?_⟩
  exact (score_fallback_tiers (DF.mk 1 [⟨"pos0_A", true, [(1 : ℚ)]⟩]) []).2.1
    (MLModel.mk none fun d => match d with
      | .named df => if df.cols.any (fun c => c.name == "A1") then .ok [(5 : ℚ)]
        else .error ⟨"feature_names mismatch", false⟩
      | .raw _ => .error ⟨"shape", false⟩)
    [(5 : ℚ)] ⟨"feature_names mismatch", false⟩ rfl rfl rfl

end TreeCrispr
